import Mathlib

/-!
Verification development for the matrix acquisition-and-preparation pipeline
of the data-portal-summary-stats repository. The definitions below shallowly
embed the Python source (dpss/matrix_preparer.py, dpss/matrix_provider.py,
dpss/utils.py, dpss/matrix_summary_stats.py); the theorems settle the spec
claims about that code. File contents are modelled at the level of lines of
characters, numeric tokens as canonical decimal renderings.
-/

namespace DPSS

/-- Character of a single decimal digit, as Python's str emits it. -/
def digitChar (d : Nat) : Char :=
  "0123456789".data.getD d '9'

/-- Numeric value of a decimal digit character, none for non-digits. -/
def charDigit (c : Char) : Option Nat :=
  if 48 ≤ c.toNat ∧ c.toNat ≤ 57 then some (c.toNat - 48) else none

/-- One step of left-to-right decimal accumulation; fails on non-digits. -/
def parseStep (acc : Option Nat) (c : Char) : Option Nat :=
  acc.bind fun a => (charDigit c).map fun d => 10 * a + d

/-- Parse a token of digit characters as a natural number. Models the exact
numeric parsing pandas/numpy perform on the integer tokens of the matrix file
(and int(float(c)) on the dimension tokens, which is exact on canonical
decimal tokens in range). -/
def parseNatTok (cs : List Char) : Option Nat :=
  if cs.isEmpty then none else cs.foldl parseStep (some 0)

/-- Canonical decimal rendering of a natural number (Python str). -/
def renderNatTok (n : Nat) : List Char :=
  if n = 0 then ['0'] else ((Nat.digits 10 n).reverse).map digitChar

/-- Split a line of characters at single spaces into tokens; embeds the
field splitting pandas performs with a one-space separator. -/
def splitSp : List Char → List (List Char)
  | [] => [[]]
  | c :: rest =>
    if c = ' ' then [] :: splitSp rest
    else
      match splitSp rest with
      | t :: ts => (c :: t) :: ts
      | [] => [[c]]

/-- Join tokens with single spaces; embeds the space-separated rendering used
by Mtx.write (to_csv with a space separator, and the explicit join of the
sizes line). -/
def joinSp : List (List Char) → List Char
  | [] => []
  | [t] => t
  | t :: ts => t ++ ' ' :: joinSp ts

/-- A pandas data row of the in-memory matrix table: the index label paired
with the field values of the row. Field values of these count matrices are
nonnegative integers. -/
structure PyRow where
  label : Nat
  fields : List Nat
  deriving DecidableEq, Repr

/-- Embedding of matrix_preparer.Mtx: the comment header line, the parsed
dimension sizes, and the data table with its pandas index labels. -/
structure Mtx where
  header : List Char
  sizes : List Nat
  data : List PyRow
  deriving DecidableEq, Repr

/-- Parse one line into its numeric fields. -/
def parseLine (cs : List Char) : Option (List Nat) :=
  (splitSp cs).mapM parseNatTok

/-- Embedding of Mtx.__init__ on the file's lines: the first line must be a
comment header (it starts with the percent sign), the second line's tokens
give the sizes, the remaining lines are data rows of three fields each,
indexed with a fresh positional RangeIndex. Inputs outside this shape are not
modelled and give none. -/
def Mtx.load (lines : List (List Char)) : Option Mtx :=
  match lines with
  | header :: dims :: rest =>
    if header.head? = some '%' then
      match parseLine dims, rest.mapM parseLine with
      | some ds, some rs =>
        if ds.length = 3 ∧ ∀ r ∈ rs, r.length = 3 then
          some { header := header, sizes := ds,
                 data := rs.enum.map fun q => { label := q.1, fields := q.2 } }
        else none
      | _, _ => none
    else none
  | _ => none

/-- Embedding of Mtx.write: the header line, then the sizes joined by spaces,
then each data row's fields space-separated (no index, no column header). -/
def Mtx.write (m : Mtx) : List (List Char) :=
  m.header
    :: joinSp (m.sizes.map renderNatTok)
    :: m.data.map fun r => joinSp (r.fields.map renderNatTok)

/-- Positions from i at which a Boolean vector is false: embeds
np.flatnonzero applied to the negated keep vector in Mtx.filter_entries. -/
def falsePositionsFrom (i : Nat) : List Bool → List Nat
  | [] => []
  | b :: bs =>
    if b then falsePositionsFrom (i + 1) bs else i :: falsePositionsFrom (i + 1) bs

/-- Positions at which a Boolean vector is false. -/
def falsePositions (bs : List Bool) : List Nat :=
  falsePositionsFrom 0 bs

/-- Argument of Mtx.filter_entries: a predicate over a row's fields, or a
sequence of 0-based positions (the which_rows union type). -/
inductive WhichRows where
  | pred (p : List Nat → Bool)
  | indices (l : List Nat)

/-- Embedding of Mtx.filter_entries. The predicate branch applies the
predicate to every row and drops, by index label, the positions at which it
is false; the index branch takes rows positionally via iloc in the order the
positions are given. reset_index (without drop) then moves each row's old
label into a new leading field and assigns a fresh RangeIndex, and the third
size entry is set to the new row count. -/
def Mtx.filter_entries (m : Mtx) (w : WhichRows) : Mtx :=
  let kept : List PyRow :=
    match w with
    | .pred p =>
      let dropLabels := falsePositions (m.data.map fun r => p r.fields)
      m.data.filter fun r => !(dropLabels.contains r.label)
    | .indices l => l.filterMap fun i => m.data[i]?
  { header := m.header
    sizes := m.sizes.set 2 kept.length
    data := kept.enum.map fun q => { label := q.1, fields := q.2.label :: q.2.fields } }

/-- Embedding of matrix_preparer.Tsv: an optional split-off header row and
the data rows of the tab-separated file. -/
structure Tsv where
  header : Option (List String)
  data : List (List String)
  deriving DecidableEq, Repr

/-- Embedding of Tsv.detect_header: the exact expected size means no header;
one extra row splits off the first row as the header; anything else is the
RuntimeError the spec names FormatError. -/
def Tsv.detect_header (t : Tsv) (expected_size : Nat) : Except String (Bool × Tsv) :=
  let size := t.data.length
  if size = expected_size then .ok (false, t)
  else if size = expected_size + 1 then
    .ok (true, { header := t.data.head?, data := t.data.tail })
  else .error "FormatError"

/-- Embedding of MatrixSummaryStats.translate_lca; none models the ValueError
raised for a label outside the closed classification. The Python vendor test
lca.upper().startswith of the 10X token is taken on the label's character
list. -/
def MatrixSummaryStats.translate_lca (lca : String) : Option String :=
  if lca = "Smart-seq2" then some "SS2"
  else if ("10X".data).isPrefixOf (lca.data.map Char.toUpper) then some "10X"
  else none

/-- The translated label set computed in MatrixPreparer.separate from the
unfiltered label column (none when any label fails to translate). -/
def foundLcas (lib_con_data : List String) : Option (Finset String) :=
  (lib_con_data.mapM MatrixSummaryStats.translate_lca).map List.toFinset

/-- Embedding of the label-set reconciliation in MatrixPreparer.separate; the
error models the RuntimeError the spec names InconsistentLabelsError. -/
def reconcileLcas (prior found : Finset String) : Except String (Finset String) :=
  if prior = ∅ then .ok found
  else if found = prior then .ok found
  else if found ⊂ prior then .ok found
  else .error "InconsistentLabelsError"

/-- Embedding of the matrix_filter closure in MatrixPreparer.separate: an
entry is kept for the label directory lca when the untranslated label-column
value at the entry's 1-based barcode index equals lca. -/
def separateFilter (lib_con_data : List String) (lca : String) (fields : List Nat) : Bool :=
  lib_con_data.getD (fields.getD 1 0 - 1) "" == lca

/-- The on-disk file triple of one matrix directory as the preparer sees
it. -/
structure PrepState where
  mtx : Mtx
  genes : Tsv
  barcodes : Tsv
  deriving DecidableEq

/-- Python round (round-half-to-even) of a rational. -/
def pythonRound (q : ℚ) : ℤ :=
  if Int.fract q < 1 / 2 then ⌊q⌋
  else if 1 / 2 < Int.fract q then ⌊q⌋ + 1
  else if Even ⌊q⌋ then ⌊q⌋ else ⌊q⌋ + 1

/-- Embedding of MatrixPreparer.prune: validates keep_frac (else the
ValueError), then filters the matrix entries at the positions sampled by
np.random.choice without replacement (the sample is the choice parameter;
the theorems constrain it to the sampler's guarantees: distinct in-range
positions, round(keep_frac * len) many) and rewrites the matrix file only;
the annotation files are untouched. -/
def MatrixPreparer.prune (st : PrepState) (keep_frac : ℚ) (choice : List Nat) :
    Except String PrepState :=
  if ¬(0 < keep_frac ∧ keep_frac ≤ 1) then .error "ValueError"
  else .ok { st with mtx := st.mtx.filter_entries (.indices choice) }

/-- Stable insert into a list sorted ascending by key: the new element goes
after strictly smaller keys and before equal ones. -/
def insertSorted (key : α → Int) (a : α) : List α → List α
  | [] => [a]
  | b :: l => if key a ≤ key b then a :: b :: l else b :: insertSorted key a l

/-- Stable ascending sort by an integer key; models Python list.sort with a
key function (Timsort sorts ascending and is stable). -/
def sortByKey (key : α → Int) : List α → List α
  | [] => []
  | a :: l => insertSorted key a (sortByKey key l)

/-- Embedding of utils.sort_optionals with none_behavior='back': the none
items are removed, the rest sorted ascending (stably) by the keyword sort
key, and the nones appended at the back. -/
def sort_optionals (items : List (Option α)) (key : α → Int) : List (Option α) :=
  let notNone := items.filterMap id
  (sortByKey key notNone).map some ++ List.replicate (items.length - notNone.length) none

/-- Embedding of the ordering step of MatrixProvider.__iter__: the admitted
entity ids are passed to sort_optionals with key get_matrix_size. Sizes are
taken as known integers (with a none size the Python sort would raise
TypeError on the first comparison rather than order anything). -/
def MatrixProvider.iter_order (admitted : List String)
    (get_matrix_size : String → Int) : List (Option String) :=
  sort_optionals (admitted.map some) get_matrix_size

/-- Embedding of MatrixProvider.filter_entity_id, the base admission filter:
reject a blacklisted id, then reject a non-targeted id when a target set is
configured. The error carries the SkipMatrix reason. -/
def MatrixProvider.filter_entity_id (blacklist : List String)
    (target_uuids : Option (List String)) (entity_id : String) : Except String Unit :=
  if entity_id ∈ blacklist then .error "blacklisted"
  else
    match target_uuids with
    | some ts => if entity_id ∈ ts then .ok () else .error "not targeted"
    | none => .ok ()

/-- Embedding of FreshMatrixProvider.filter_entity_id. The provider holds the
blacklist and target set loaded at construction, but this override does not
call the superclass filter, so those arguments go unused; only
classifiability of the project's declared labels is checked. -/
def FreshMatrixProvider.filter_entity_id (blacklist : List String)
    (target_uuids : Option (List String)) (project_lcas : String → List String)
    (entity_id : String) : Except String Unit :=
  if ((project_lcas entity_id).mapM MatrixSummaryStats.translate_lca).isSome then .ok ()
  else .error "bad azul lca"

/-- Embedding of IdempotentMatrixProvider.get_figure_modification_times after
the object-key plumbing: from the (uuid, last-modified) pairs of the listed
target figures, the minimum time per uuid. -/
def IdempotentMatrixProvider.get_figure_modification_times
    (figures : List (String × Int)) (uuid : String) : Option Int :=
  match (figures.filter fun f => f.1 == uuid).map Prod.snd with
  | [] => none
  | t :: ts => some (ts.foldl min t)

/-- Embedding of IdempotentMatrixProvider.filter_entity_id (inherited by the
canned object-store provider and chained by the local-disk provider): the
base filter first, then, unless the force override is set, skip an id whose
matrix modification time is not strictly newer than its known figure
modification time; an id with no known figure time is admitted. -/
def IdempotentMatrixProvider.filter_entity_id (blacklist : List String)
    (target_uuids : Option (List String)) (ignore_mtime : Bool)
    (figure_mtimes : String → Option Int) (matrix_mtime : String → Int)
    (entity_id : String) : Except String Unit :=
  match MatrixProvider.filter_entity_id blacklist target_uuids entity_id with
  | .error e => .error e
  | .ok _ =>
    if ignore_mtime then .ok ()
    else
      match figure_mtimes entity_id with
      | none => .ok ()
      | some figure_mtime =>
        if figure_mtime < matrix_mtime entity_id then .ok () else .error "up to date"

/-- A freshly loaded two-entry matrix used as a concrete input. -/
def mtxTwo : Mtx :=
  { header := ['%'], sizes := [2, 2, 2],
    data := [{ label := 0, fields := [1, 1, 5] }, { label := 1, fields := [1, 2, 7] }] }

/-- A freshly loaded one-entry matrix used as a concrete input. -/
def mtxOne : Mtx :=
  { header := ['%'], sizes := [1, 1, 1],
    data := [{ label := 0, fields := [1, 1, 2] }] }

/-- An empty annotation placeholder for the prune state. -/
def tsvEmpty : Tsv :=
  { header := none, data := [] }

/-- Prune state around the two-entry matrix. -/
def prepTwo : PrepState :=
  { mtx := mtxTwo, genes := tsvEmpty, barcodes := tsvEmpty }

/-- Prune state around the one-entry matrix. -/
def prepOne : PrepState :=
  { mtx := mtxOne, genes := tsvEmpty, barcodes := tsvEmpty }

theorem charDigit_digitChar : ∀ d < 10, charDigit (digitChar d) = some d := by
  decide

theorem digitChar_ne_space : ∀ d, digitChar d ≠ ' ' := by
  intro d
  by_cases h : d < 10
  · revert h
    revert d
    decide
  · rw [digitChar, List.getD_eq_default]
    · decide
    · simpa using Nat.le_of_not_lt h

theorem foldl_parseStep_digits (l : List Nat) (hl : ∀ d ∈ l, d < 10) :
    ∀ a : Nat, (l.reverse.map digitChar).foldl parseStep (some a)
      = some (a * 10 ^ l.length + Nat.ofDigits 10 l) := by
  induction l with
  | nil =>
      intro a
      simp [Nat.ofDigits_nil]
  | cons d t ih =>
      intro a
      have hd : d < 10 := hl d (List.mem_cons_self d t)
      have ht : ∀ x ∈ t, x < 10 := fun x hx => hl x (List.mem_cons_of_mem d hx)
      rw [List.reverse_cons, List.map_append, List.foldl_append, ih ht a]
      simp [parseStep, charDigit_digitChar d hd, Nat.ofDigits_cons]
      ring

theorem parseNatTok_renderNatTok (n : Nat) :
    parseNatTok (renderNatTok n) = some n := by
  by_cases h0 : n = 0
  · subst h0; decide
  · have hne : Nat.digits 10 n ≠ [] := Nat.digits_ne_nil_iff_ne_zero.mpr h0
    have hlt : ∀ d ∈ Nat.digits 10 n, d < 10 := fun d hd =>
      Nat.digits_lt_base (by norm_num) hd
    have hnonempty : ((Nat.digits 10 n).reverse.map digitChar).isEmpty = false := by
      simp [List.isEmpty_eq_false_iff_exists_mem]
      exact hne
    rw [renderNatTok, if_neg h0, parseNatTok, hnonempty]
    simp only [Bool.false_eq_true, if_false]
    rw [foldl_parseStep_digits _ hlt 0]
    simp [Nat.ofDigits_digits]

theorem splitSp_ne_nil (cs : List Char) : splitSp cs ≠ [] := by
  induction cs with
  | nil => simp [splitSp]
  | cons c rest ih =>
      by_cases hc : c = ' '
      · simp [splitSp, hc]
      · simp only [splitSp, if_neg hc]
        cases h : splitSp rest with
        | nil => exact absurd h ih
        | cons t ts => simp

theorem splitSp_append_space (t r : List Char) (ht : ' ' ∉ t) :
    splitSp (t ++ ' ' :: r) = t :: splitSp r := by
  induction t with
  | nil => simp [splitSp]
  | cons c t' ih =>
      have hc : c ≠ ' ' := fun h => ht (h ▸ List.mem_cons_self c t')
      have ht' : ' ' ∉ t' := fun h => ht (List.mem_cons_of_mem c h)
      simp only [List.cons_append, splitSp, if_neg hc]
      rw [List.append_eq, ih ht']

theorem splitSp_token (t : List Char) (ht : ' ' ∉ t) : splitSp t = [t] := by
  induction t with
  | nil => simp [splitSp]
  | cons c t' ih =>
      have hc : c ≠ ' ' := fun h => ht (h ▸ List.mem_cons_self c t')
      have ht' : ' ' ∉ t' := fun h => ht (List.mem_cons_of_mem c h)
      simp only [splitSp, if_neg hc, ih ht']

theorem splitSp_joinSp (t : List Char) (ts : List (List Char))
    (h : ∀ u ∈ t :: ts, ' ' ∉ u) :
    splitSp (joinSp (t :: ts)) = t :: ts := by
  induction ts generalizing t with
  | nil => exact splitSp_token t (h t (List.mem_cons_self t []))
  | cons u ts ih =>
      have ht : ' ' ∉ t := h t (List.mem_cons_self t _)
      have h' : ∀ v ∈ u :: ts, ' ' ∉ v := fun v hv =>
        h v (List.mem_cons_of_mem t hv)
      calc splitSp (joinSp (t :: u :: ts))
          = splitSp (t ++ ' ' :: joinSp (u :: ts)) := rfl
        _ = t :: splitSp (joinSp (u :: ts)) := splitSp_append_space t _ ht
        _ = t :: u :: ts := by rw [ih u h']

theorem renderNatTok_ne_nil (n : Nat) : renderNatTok n ≠ [] := by
  by_cases h0 : n = 0
  · subst h0; decide
  · have hne : Nat.digits 10 n ≠ [] := Nat.digits_ne_nil_iff_ne_zero.mpr h0
    simp [renderNatTok, if_neg h0, hne]

theorem space_not_mem_renderNatTok (n : Nat) : ' ' ∉ renderNatTok n := by
  by_cases h0 : n = 0
  · subst h0; decide
  · rw [renderNatTok, if_neg h0]
    intro hmem
    obtain ⟨d, _, hd⟩ := List.mem_map.mp hmem
    exact digitChar_ne_space d hd

theorem enumFrom_map_snd (f : α → β) :
    ∀ (i : Nat) (l : List α), ((List.enumFrom i l).map fun q => f q.2) = l.map f := by
  intro i l
  induction l generalizing i with
  | nil => rfl
  | cons a l ih => simp [List.enumFrom, ih]

theorem getElem?_cons_split (b : α) (bs : List α) (k : Nat) :
    (b :: bs)[k]? = if k = 0 then some b else bs[k - 1]? := by
  cases k with
  | zero => simp
  | succ k => simp

theorem mem_falsePositionsFrom (bs : List Bool) :
    ∀ i j, j ∈ falsePositionsFrom i bs ↔ i ≤ j ∧ bs[j - i]? = some false := by
  induction bs with
  | nil =>
      intro i j
      simp [falsePositionsFrom]
  | cons b bs ih =>
      intro i j
      constructor
      · intro hmem
        cases b with
        | true =>
            simp only [falsePositionsFrom, if_true] at hmem
            obtain ⟨h1, h2⟩ := (ih (i + 1) j).mp hmem
            refine ⟨by omega, ?_⟩
            rw [getElem?_cons_split, if_neg (by omega)]
            have heq : j - i - 1 = j - (i + 1) := by omega
            rw [heq]
            exact h2
        | false =>
            simp only [falsePositionsFrom, Bool.false_eq_true, if_false,
              List.mem_cons] at hmem
            rcases hmem with rfl | hmem
            · refine ⟨Nat.le_refl j, ?_⟩
              rw [getElem?_cons_split, if_pos (by omega)]
            · obtain ⟨h1, h2⟩ := (ih (i + 1) j).mp hmem
              refine ⟨by omega, ?_⟩
              rw [getElem?_cons_split, if_neg (by omega)]
              have heq : j - i - 1 = j - (i + 1) := by omega
              rw [heq]
              exact h2
      · intro hyp
        obtain ⟨h1, h2⟩ := hyp
        rcases Nat.eq_or_lt_of_le h1 with heq | hlt
        · subst heq
          rw [getElem?_cons_split, if_pos (by omega)] at h2
          have hb : b = false := by simpa using h2
          subst hb
          simp [falsePositionsFrom]
        · rw [getElem?_cons_split, if_neg (by omega)] at h2
          have heq : j - i - 1 = j - (i + 1) := by omega
          rw [heq] at h2
          have hmem := (ih (i + 1) j).mpr ⟨by omega, h2⟩
          cases b with
          | true =>
              simp only [falsePositionsFrom, if_true]
              exact hmem
          | false =>
              simp only [falsePositionsFrom, Bool.false_eq_true, if_false,
                List.mem_cons]
              exact Or.inr hmem

theorem mem_falsePositions (bs : List Bool) (j : Nat) :
    j ∈ falsePositions bs ↔ bs[j]? = some false := by
  rw [falsePositions, mem_falsePositionsFrom bs 0 j]
  simp

theorem foldl_min_le (t : Int) (ts : List Int) :
    ∀ x ∈ t :: ts, ts.foldl min t ≤ x := by
  induction ts generalizing t with
  | nil =>
      intro x hx
      rcases List.mem_singleton.mp hx with rfl
      exact Int.le_refl x
  | cons u ts ih =>
      intro x hx
      rcases List.mem_cons.mp hx with rfl | hx'
      · calc ts.foldl min (min x u) ≤ min x u :=
            ih (min x u) (min x u) (List.mem_cons_self _ _)
          _ ≤ x := min_le_left x u
      · rcases List.mem_cons.mp hx' with rfl | hx''
        · calc ts.foldl min (min t x) ≤ min t x :=
              ih (min t x) (min t x) (List.mem_cons_self _ _)
            _ ≤ x := min_le_right t x
        · exact ih (min t u) x (List.mem_cons_of_mem _ hx'')

theorem foldl_min_mem (t : Int) (ts : List Int) :
    ts.foldl min t ∈ t :: ts := by
  induction ts generalizing t with
  | nil => exact List.mem_singleton.mpr rfl
  | cons u ts ih =>
      have h := ih (min t u)
      rcases List.mem_cons.mp h with heq | hmem
      · rw [List.foldl_cons, heq]
        rcases min_choice t u with h' | h'
        · rw [h']; exact List.mem_cons_self _ _
        · rw [h']; exact List.mem_cons_of_mem _ (List.mem_cons_self _ _)
      · exact List.mem_cons_of_mem _ (List.mem_cons_of_mem _ hmem)

/-- C5: detect_header returns no header at exactly the expected row count,
splits off the first row at one more, and fails with the FormatError for any
other count. -/
theorem detect_header_spec (t : Tsv) (n : Nat) :
    (t.data.length = n → t.detect_header n = .ok (false, t))
    ∧ (t.data.length = n + 1 →
        t.detect_header n = .ok (true, { header := t.data.head?, data := t.data.tail }))
    ∧ (t.data.length ≠ n → t.data.length ≠ n + 1 →
        t.detect_header n = .error "FormatError") := by
  refine ⟨fun h => ?_, fun h => ?_, fun h1 h2 => ?_⟩
  · simp [Tsv.detect_header, h]
  · simp [Tsv.detect_header, h]
  · simp [Tsv.detect_header, h1, h2]

/-- Witness for detect_header_spec: a two-row file against expected size one
splits off its first row as the header. -/
theorem detect_header_spec_witness :
    Tsv.detect_header { header := none, data := [["x"], ["y"]] } 1
      = .ok (true, { header := some ["x"], data := [["y"]] }) :=
  (detect_header_spec { header := none, data := [["x"], ["y"]] } 1).2.1 rfl

/-- C4: label reconciliation accepts an empty prior set (filled from the
observed set) and any observed set contained in the prior set, and errors
exactly when a nonempty prior fails to contain the observed set. -/
theorem reconcile_labels_spec (prior found : Finset String) :
    (prior = ∅ → reconcileLcas prior found = .ok found)
    ∧ (found ⊆ prior → reconcileLcas prior found = .ok found)
    ∧ (prior ≠ ∅ → ¬found ⊆ prior →
        reconcileLcas prior found = .error "InconsistentLabelsError") := by
  refine ⟨fun h => ?_, fun h => ?_, fun h1 h2 => ?_⟩
  · simp [reconcileLcas, h]
  · by_cases hp : prior = ∅
    · simp [reconcileLcas, hp]
    · by_cases he : found = prior
      · simp [reconcileLcas, hp, he]
      · have hss : found ⊂ prior := lt_of_le_of_ne h he
        simp [reconcileLcas, hp, he, hss]
  · have he : found ≠ prior := fun h => h2 (h ▸ Finset.Subset.refl found)
    have hss : ¬found ⊂ prior := fun h => h2 h.subset
    simp [reconcileLcas, h1, he, hss]

/-- Witness for reconcile_labels_spec: the observed singleton below a prior
two-label set is accepted. -/
theorem reconcile_labels_spec_witness :
    reconcileLcas {"SS2", "10X"} {"SS2"} = .ok {"SS2"} :=
  (reconcile_labels_spec {"SS2", "10X"} {"SS2"}).2.1 (by decide)

/-- C8: with the force override inactive and the base filter passing, the
idempotent filter admits an id with no known figure time; when a figure time
is known it rejects the id unless the matrix time is strictly newer, and the
known figure time is the oldest listed figure time for that id. -/
theorem idempotent_filter_mtime_spec (blacklist : List String)
    (target_uuids : Option (List String)) (figures : List (String × Int))
    (matrix_mtime : String → Int) (entity_id : String)
    (hbase : MatrixProvider.filter_entity_id blacklist target_uuids entity_id = .ok ()) :
    (IdempotentMatrixProvider.get_figure_modification_times figures entity_id = none →
      IdempotentMatrixProvider.filter_entity_id blacklist target_uuids false
        (IdempotentMatrixProvider.get_figure_modification_times figures)
        matrix_mtime entity_id = .ok ())
    ∧ ∀ fm,
        IdempotentMatrixProvider.get_figure_modification_times figures entity_id = some fm →
        (matrix_mtime entity_id ≤ fm →
          IdempotentMatrixProvider.filter_entity_id blacklist target_uuids false
            (IdempotentMatrixProvider.get_figure_modification_times figures)
            matrix_mtime entity_id = .error "up to date")
        ∧ (fm < matrix_mtime entity_id →
          IdempotentMatrixProvider.filter_entity_id blacklist target_uuids false
            (IdempotentMatrixProvider.get_figure_modification_times figures)
            matrix_mtime entity_id = .ok ())
        ∧ fm ∈ (figures.filter fun f => f.1 == entity_id).map Prod.snd
        ∧ ∀ t ∈ (figures.filter fun f => f.1 == entity_id).map Prod.snd, fm ≤ t := by
  constructor
  · intro hnone
    simp [IdempotentMatrixProvider.filter_entity_id, hbase, hnone]
  · intro fm hfm
    refine ⟨fun hle => ?_, fun hlt => ?_, ?_, ?_⟩
    · simp [IdempotentMatrixProvider.filter_entity_id, hbase, hfm,
        if_neg (not_lt.mpr hle)]
    · simp [IdempotentMatrixProvider.filter_entity_id, hbase, hfm, if_pos hlt]
    · rcases hlist : (figures.filter fun f => f.1 == entity_id).map Prod.snd with _ | ⟨t, ts⟩
      · rw [IdempotentMatrixProvider.get_figure_modification_times, hlist] at hfm
        exact absurd hfm (by simp)
      · rw [IdempotentMatrixProvider.get_figure_modification_times, hlist] at hfm
        have hfm' : fm = ts.foldl min t := by
          simpa using hfm.symm
        rw [hlist, hfm']
        exact foldl_min_mem t ts
    · intro t' ht'
      rcases hlist : (figures.filter fun f => f.1 == entity_id).map Prod.snd with _ | ⟨t, ts⟩
      · rw [IdempotentMatrixProvider.get_figure_modification_times, hlist] at hfm
        exact absurd hfm (by simp)
      · rw [IdempotentMatrixProvider.get_figure_modification_times, hlist] at hfm
        have hfm' : fm = ts.foldl min t := by
          simpa using hfm.symm
        rw [hlist] at ht'
        rw [hfm']
        exact foldl_min_le t ts t' ht'

/-- Witness for idempotent_filter_mtime_spec: with figures for id a uploaded
at times 5 and 3, the oldest is 3 and a matrix modified at 4 is admitted. -/
theorem idempotent_filter_mtime_spec_witness :
    IdempotentMatrixProvider.filter_entity_id [] none false
      (IdempotentMatrixProvider.get_figure_modification_times
        [("a", 5), ("a", 3), ("b", 9)])
      (fun _ => 4) "a" = .ok () := by
  have h := idempotent_filter_mtime_spec [] none [("a", 5), ("a", 3), ("b", 9)]
    (fun _ => 4) "a" rfl
  exact (h.2 3 (by decide)).2.1 (by decide)

/-- C3: the base admission filter rejects a blacklisted id, but the
remote-service provider's filter override, which never invokes the base
filter, admits the same blacklisted id because its labels classify. -/
theorem fresh_filter_skips_blacklist :
    MatrixProvider.filter_entity_id ["b1"] none "b1" = .error "blacklisted"
    ∧ FreshMatrixProvider.filter_entity_id ["b1"] none
        (fun _ => ["Smart-seq2"]) "b1" = .ok () := by
  exact ⟨rfl, rfl⟩

/-- C2: on two ids of sizes one and two the iteration order the code
produces is ascending by size — not the descending order the claim (and the
iterator's own docstring) state. -/
theorem iter_order_ascending :
    MatrixProvider.iter_order ["a", "b"] (fun i => if i = "a" then 1 else 2)
      = [some "a", some "b"]
    ∧ [some "a", some "b"] ≠ ([some "b", some "a"] : List (Option String)) := by
  exact ⟨by decide, by decide⟩

theorem label_of_fresh (m : Mtx)
    (hfresh : m.data.map PyRow.label = List.range m.data.length)
    {j : Nat} {r : PyRow} (hget : m.data[j]? = some r) : r.label = j := by
  have hj : j < m.data.length := by
    by_contra hge
    rw [List.getElem?_eq_none (by omega)] at hget
    exact Option.noConfusion hget
  have h1 : (m.data.map PyRow.label)[j]? = some r.label := by
    rw [List.getElem?_map, hget]
    rfl
  rw [hfresh, List.getElem?_range (by simpa using hj)] at h1
  exact (Option.some.injEq _ _ ▸ h1).symm

theorem mem_fresh_getElem (m : Mtx)
    (hfresh : m.data.map PyRow.label = List.range m.data.length)
    {r : PyRow} (hr : r ∈ m.data) : m.data[r.label]? = some r := by
  obtain ⟨i, hi, hgeti⟩ := List.mem_iff_getElem.mp hr
  have hget : m.data[i]? = some r := by
    rw [List.getElem?_eq_getElem hi, hgeti]
  have hlab := label_of_fresh m hfresh hget
  rw [hlab]
  exact hget

theorem filter_entries_pred_kept (m : Mtx) (p : List Nat → Bool)
    (hfresh : m.data.map PyRow.label = List.range m.data.length) :
    (m.data.filter fun r =>
        !((falsePositions (m.data.map fun r => p r.fields)).contains r.label))
      = m.data.filter fun r => p r.fields := by
  apply List.filter_congr
  intro r hr
  have hget : m.data[r.label]? = some r := mem_fresh_getElem m hfresh hr
  have hmap : (m.data.map fun r => p r.fields)[r.label]? = some (p r.fields) := by
    rw [List.getElem?_map, hget]
    rfl
  have hiff : r.label ∈ falsePositions (m.data.map fun r => p r.fields)
      ↔ p r.fields = false := by
    rw [mem_falsePositions, hmap]
    exact ⟨fun h => by simpa using h, fun h => by rw [h]⟩
  cases hp : p r.fields with
  | true =>
      have : r.label ∉ falsePositions (m.data.map fun r => p r.fields) := by
        rw [hiff, hp]
        simp
      simp [this]
  | false =>
      have : r.label ∈ falsePositions (m.data.map fun r => p r.fields) :=
        hiff.mpr hp
      simp [this]

theorem filterMap_getElem_eq_map (data : List PyRow) :
    ∀ l : List Nat, (∀ i ∈ l, i < data.length) →
      (l.filterMap fun i => data[i]?)
        = l.map fun i => data.getD i { label := 0, fields := [] } := by
  intro l
  induction l with
  | nil => intro _; rfl
  | cons i l ih =>
      intro hb
      have hi : i < data.length := hb i (List.mem_cons_self i l)
      have hl : ∀ j ∈ l, j < data.length := fun j hj =>
        hb j (List.mem_cons_of_mem i hj)
      rw [List.filterMap_cons, List.map_cons, List.getElem?_eq_getElem hi, ih hl,
        List.getD_eq_getElem data _ hi]

theorem filter_entries_pred_tails (m : Mtx) (p : List Nat → Bool) :
    ((m.filter_entries (.pred p)).data.map fun r => r.fields.tail)
      = (m.data.filter fun r =>
          !((falsePositions (m.data.map fun r => p r.fields)).contains r.label)).map
          PyRow.fields := by
  rw [Mtx.filter_entries]
  simp only [List.map_map]
  rw [List.enum]
  exact enumFrom_map_snd (fun r : PyRow => r.fields) 0 _

theorem filter_entries_indices_tails (m : Mtx) (l : List Nat) :
    ((m.filter_entries (.indices l)).data.map fun r => r.fields.tail)
      = (l.filterMap fun i => m.data[i]?).map PyRow.fields := by
  rw [Mtx.filter_entries]
  simp only [List.map_map]
  rw [List.enum]
  exact enumFrom_map_snd (fun r : PyRow => r.fields) 0 _

/-- C9 counterexample: an index filter given positions in the order 1, 0
returns the rows in that order, not in the original relative order. -/
theorem filter_entries_index_order_counterexample :
    ((mtxTwo.filter_entries (.indices [1, 0])).data.map fun r => r.fields.tail)
      = [[1, 2, 7], [1, 1, 5]]
    ∧ ([[1, 2, 7], [1, 1, 5]] : List (List Nat)) ≠ [[1, 1, 5], [1, 2, 7]] := by
  exact ⟨by decide, by decide⟩

/-- C9 (amended): filter_entries retains exactly the selected rows and sets
the third size entry to the retained count; a predicate filter preserves the
original relative order, while an index filter returns the rows in the order
the positions are listed (so original order only for an increasing index
sequence). -/
theorem filter_entries_selection_order (m : Mtx) (p : List Nat → Bool) (l : List Nat)
    (hfresh : m.data.map PyRow.label = List.range m.data.length)
    (hb : ∀ i ∈ l, i < m.data.length) :
    ((m.filter_entries (.pred p)).data.map fun r => r.fields.tail)
        = (m.data.filter fun r => p r.fields).map PyRow.fields
    ∧ (m.filter_entries (.pred p)).sizes
        = m.sizes.set 2 (m.data.filter fun r => p r.fields).length
    ∧ ((m.filter_entries (.indices l)).data.map fun r => r.fields.tail)
        = (l.map fun i => (m.data.getD i { label := 0, fields := [] }).fields)
    ∧ (m.filter_entries (.indices l)).sizes = m.sizes.set 2 l.length := by
  refine ⟨?_, ?_, ?_, ?_⟩
  · rw [filter_entries_pred_tails, filter_entries_pred_kept m p hfresh]
  · rw [Mtx.filter_entries]
    simp only
    rw [filter_entries_pred_kept m p hfresh]
  · rw [filter_entries_indices_tails]
    rw [filterMap_getElem_eq_map m.data l hb, List.map_map]
    rfl
  · rw [Mtx.filter_entries]
    simp only
    rw [filterMap_getElem_eq_map m.data l hb, List.length_map]

/-- Witness for filter_entries_selection_order on the concrete two-row
matrix: a predicate keeping count five retains exactly the first row in
place, and the index list 0, 1 returns both rows in that order. -/
theorem filter_entries_selection_order_witness :
    ((mtxTwo.filter_entries (.pred fun f => f.getD 2 0 == 5)).data.map
        fun r => r.fields.tail) = [[1, 1, 5]]
    ∧ (mtxTwo.filter_entries (.pred fun f => f.getD 2 0 == 5)).sizes = [2, 2, 1]
    ∧ ((mtxTwo.filter_entries (.indices [0, 1])).data.map fun r => r.fields.tail)
        = [[1, 1, 5], [1, 2, 7]]
    ∧ (mtxTwo.filter_entries (.indices [0, 1])).sizes = [2, 2, 2] := by
  have h := filter_entries_selection_order mtxTwo (fun f => f.getD 2 0 == 5) [0, 1]
    (by decide) (by decide)
  refine ⟨?_, ?_, ?_, ?_⟩
  · rw [h.1]; decide
  · rw [h.2.1]; decide
  · rw [h.2.2.1]; decide
  · rw [h.2.2.2]; decide

/-- C10: any filter_entries call on a freshly loaded three-field matrix
leaves every retained row with four fields whose head is the row's pre-filter
position and whose tail is that original row's fields, so the line written
for it by Mtx.write splits into four space-separated fields. -/
theorem filter_entries_adds_index_column (m : Mtx) (w : WhichRows) (r : PyRow)
    (hfresh : m.data.map PyRow.label = List.range m.data.length)
    (hfields : ∀ r0 ∈ m.data, r0.fields.length = 3)
    (hr : r ∈ (m.filter_entries w).data) :
    r.fields.length = 4
    ∧ (∃ j, r.fields.head? = some j
        ∧ m.data[j]? = some { label := j, fields := r.fields.tail })
    ∧ splitSp (joinSp (r.fields.map renderNatTok)) = r.fields.map renderNatTok := by
  have hkept : ∃ kept : List PyRow, (∀ x ∈ kept, x ∈ m.data)
      ∧ (m.filter_entries w).data
          = kept.enum.map fun q => { label := q.1, fields := q.2.label :: q.2.fields } := by
    cases w with
    | pred p =>
        refine ⟨m.data.filter fun r : PyRow =>
          !((falsePositions (m.data.map fun r0 : PyRow => p r0.fields)).contains r.label),
          ?_, rfl⟩
        intro x hx
        exact List.mem_of_mem_filter hx
    | indices l =>
        refine ⟨l.filterMap fun i => m.data[i]?, ?_, rfl⟩
        intro x hx
        obtain ⟨i, _, hgi⟩ := List.mem_filterMap.mp hx
        exact List.getElem?_mem hgi
  obtain ⟨kept, hsub, hdata⟩ := hkept
  rw [hdata] at hr
  obtain ⟨q, hq, hqr⟩ := List.mem_map.mp hr
  have hq2 : q.2 ∈ kept := by
    have := List.mem_enum_iff_getElem?.mp hq
    exact List.getElem?_mem this
  have hmem : q.2 ∈ m.data := hsub q.2 hq2
  have hget : m.data[q.2.label]? = some q.2 := mem_fresh_getElem m hfresh hmem
  have hlen : q.2.fields.length = 3 := hfields q.2 hmem
  have hfr : r.fields = q.2.label :: q.2.fields := by rw [← hqr]
  refine ⟨?_, ⟨q.2.label, ?_, ?_⟩, ?_⟩
  · rw [hfr, List.length_cons, hlen]
  · rw [hfr]
    rfl
  · rw [hfr]
    simp only [List.tail_cons]
    have : q.2 = { label := q.2.label, fields := q.2.fields } := rfl
    rw [← this]
    exact hget
  · rw [hfr, List.map_cons]
    apply splitSp_joinSp
    intro u hu
    rcases List.mem_cons.mp hu with rfl | hu'
    · exact space_not_mem_renderNatTok _
    · obtain ⟨n, _, hn⟩ := List.mem_map.mp hu'
      rw [← hn]
      exact space_not_mem_renderNatTok n

/-- Witness for filter_entries_adds_index_column: the surviving row of a
predicate filter on the two-row matrix has four fields, headed by its old
position. -/
theorem filter_entries_adds_index_column_witness :
    ((mtxTwo.filter_entries (.pred fun f => f.getD 2 0 == 7)).data.getD 0
        { label := 0, fields := [] }).fields.length = 4 := by
  have h := filter_entries_adds_index_column mtxTwo (.pred fun f => f.getD 2 0 == 7)
    { label := 0, fields := [1, 1, 2, 7] } (by decide) (by decide) (by decide)
  have hdata : (mtxTwo.filter_entries (.pred fun f => f.getD 2 0 == 7)).data
      = [{ label := 0, fields := [1, 1, 2, 7] }] := by decide
  rw [hdata]
  exact h.1

/-- C1: with observed labels Smart-seq2 and 10X pancreas the classified set
has both labels, so the multi-label branch partitions; the first matrix row's
column classifies to SS2, yet the SS2 partition matrix the code builds has no
rows, because the closure compares untranslated column values against the
translated label. -/
theorem separate_mislabels_partition :
    foundLcas ["Smart-seq2", "10X pancreas"] = some {"SS2", "10X"}
    ∧ MatrixSummaryStats.translate_lca
        (["Smart-seq2", "10X pancreas"].getD
          ((mtxTwo.data.getD 0 { label := 0, fields := [] }).fields.getD 1 0 - 1) "")
        = some "SS2"
    ∧ (mtxTwo.data.map fun r =>
        separateFilter ["Smart-seq2", "10X pancreas"] "SS2" r.fields) = [false, false]
    ∧ (mtxTwo.filter_entries
        (.pred (separateFilter ["Smart-seq2", "10X pancreas"] "SS2"))).data = [] := by
  exact ⟨by decide, by decide, by decide, by decide⟩

/-- C6 counterexample: at keep fraction one on the one-row matrix the only
valid without-replacement sample keeps every row, so the retained rows equal
the original rows and do not form a strict subset. -/
theorem prune_full_fraction_not_strict :
    ([0] : List Nat).Nodup
    ∧ ([0] : List Nat).length
        = (pythonRound ((1 : ℚ) * (mtxOne.sizes.getD 2 0 : ℚ))).toNat
    ∧ MatrixPreparer.prune prepOne 1 [0]
        = .ok { prepOne with mtx := mtxOne.filter_entries (.indices [0]) }
    ∧ ((mtxOne.filter_entries (.indices [0])).data.map fun r => r.fields.tail)
        = mtxOne.data.map PyRow.fields
    ∧ ¬(((mtxOne.filter_entries (.indices [0])).data.map
          fun r => r.fields.tail).toFinset
        ⊂ (mtxOne.data.map PyRow.fields).toFinset) := by
  refine ⟨by decide, ?_, ?_, by decide, by decide⟩
  · have h2 : mtxOne.sizes.getD 2 0 = 1 := rfl
    rw [h2]
    norm_num [pythonRound, Int.fract]
  · rw [MatrixPreparer.prune, if_neg (by norm_num)]
    rfl

/-- C6 (amended): prune raises the ValueError for every keep fraction
outside the unit interval, whatever the sample; inside the interval, for any
without-replacement sample of the mandated size, it keeps a subset (not
necessarily strict) of the data rows of size exactly the Python-rounded
fraction of the declared nonzero count, and only the matrix of the state
changes, never the annotation files. -/
theorem prune_keeps_round_subset (st : PrepState) (kf : ℚ) (choice : List Nat) :
    (¬(0 < kf ∧ kf ≤ 1) → MatrixPreparer.prune st kf choice = .error "ValueError")
    ∧ ((0 < kf ∧ kf ≤ 1) → choice.Nodup →
        (∀ i ∈ choice, i < st.mtx.data.length) →
        choice.length = (pythonRound (kf * (st.mtx.sizes.getD 2 0 : ℚ))).toNat →
        MatrixPreparer.prune st kf choice
            = .ok { st with mtx := st.mtx.filter_entries (.indices choice) }
        ∧ (∀ r ∈ (st.mtx.filter_entries (.indices choice)).data,
            r.fields.tail ∈ st.mtx.data.map PyRow.fields)
        ∧ (st.mtx.filter_entries (.indices choice)).data.length
            = (pythonRound (kf * (st.mtx.sizes.getD 2 0 : ℚ))).toNat) := by
  constructor
  · intro h
    simp [MatrixPreparer.prune, h]
  · intro h hnd hb hlen
    refine ⟨by simp [MatrixPreparer.prune, h], ?_, ?_⟩
    · intro r hr
      rw [Mtx.filter_entries] at hr
      simp only [List.mem_map] at hr
      obtain ⟨q, hq, hqr⟩ := hr
      have hq2 : q.2 ∈ (choice.filterMap fun i => st.mtx.data[i]?) := by
        have := List.mem_enum_iff_getElem?.mp hq
        exact List.getElem?_mem this
      obtain ⟨i, _, hgi⟩ := List.mem_filterMap.mp hq2
      have hmem : q.2 ∈ st.mtx.data := List.getElem?_mem hgi
      rw [← hqr]
      simp only [List.tail_cons]
      exact List.mem_map_of_mem PyRow.fields hmem
    · rw [Mtx.filter_entries]
      simp only [List.length_map, List.enum_length]
      rw [filterMap_getElem_eq_map st.mtx.data choice hb, List.length_map]
      exact hlen

/-- Witness for prune_keeps_round_subset: half of the two-entry matrix is one
row; sampling position one keeps that row only, leaving the annotation files
in place. -/
theorem prune_keeps_round_subset_witness :
    MatrixPreparer.prune prepTwo (1 / 2) [1]
      = .ok { prepTwo with mtx := mtxTwo.filter_entries (.indices [1]) } := by
  have hlen : ([1] : List Nat).length
      = (pythonRound ((1 : ℚ) / 2 * (prepTwo.mtx.sizes.getD 2 0 : ℚ))).toNat := by
    have h2 : prepTwo.mtx.sizes.getD 2 0 = 2 := rfl
    rw [h2]
    norm_num [pythonRound, Int.fract]
  have h := prune_keeps_round_subset prepTwo (1 / 2) [1]
  exact (h.2 (by norm_num) (by decide) (by decide) hlen).1

theorem mapM_parseNatTok_renderNatTok (xs : List Nat) :
    (xs.map renderNatTok).mapM parseNatTok = some xs := by
  induction xs with
  | nil => rfl
  | cons x xs ih =>
      rw [List.map_cons, List.mapM_cons, parseNatTok_renderNatTok, ih]
      rfl

theorem parseLine_joinSp (xs : List Nat) (hne : xs ≠ []) :
    parseLine (joinSp (xs.map renderNatTok)) = some xs := by
  cases xs with
  | nil => exact absurd rfl hne
  | cons x xs =>
      have hsp : ∀ u ∈ renderNatTok x :: xs.map renderNatTok, ' ' ∉ u := by
        intro u hu
        rcases List.mem_cons.mp hu with rfl | hu'
        · exact space_not_mem_renderNatTok x
        · obtain ⟨n, _, hn⟩ := List.mem_map.mp hu'
          rw [← hn]
          exact space_not_mem_renderNatTok n
      rw [parseLine, List.map_cons, splitSp_joinSp _ _ hsp, ← List.map_cons]
      exact mapM_parseNatTok_renderNatTok (x :: xs)

theorem mapM_parseLine_rows (rows : List (List Nat)) (hr : ∀ r ∈ rows, r ≠ []) :
    ((rows.map fun r => joinSp (r.map renderNatTok)).mapM parseLine) = some rows := by
  induction rows with
  | nil => rfl
  | cons r rows ih =>
      rw [List.map_cons, List.mapM_cons,
        parseLine_joinSp r (hr r (List.mem_cons_self r rows)),
        ih fun x hx => hr x (List.mem_cons_of_mem r hx)]
      rfl

/-- C7 counterexample: a valid one-entry file whose value token carries a
leading zero loads, but saving re-emits the canonical token, so the data row
is not reproduced byte for byte. -/
theorem mtx_write_canonicalizes_tokens :
    Mtx.load [['%'], ['1', ' ', '1', ' ', '1'], ['0', '5', ' ', '1', ' ', '5']]
      = some { header := ['%'], sizes := [1, 1, 1],
               data := [{ label := 0, fields := [5, 1, 5] }] }
    ∧ Mtx.write { header := ['%'], sizes := [1, 1, 1],
                  data := [{ label := 0, fields := [5, 1, 5] }] }
      = [['%'], ['1', ' ', '1', ' ', '1'], ['5', ' ', '1', ' ', '5']]
    ∧ (['5', ' ', '1', ' ', '5'] : List Char) ≠ ['0', '5', ' ', '1', ' ', '5'] := by
  have h1 : renderNatTok 1 = ['1'] := by
    rw [renderNatTok, if_neg (by norm_num)]
    have hd : Nat.digits 10 1 = [1] := by simp
    rw [hd]
    decide
  have h5 : renderNatTok 5 = ['5'] := by
    rw [renderNatTok, if_neg (by norm_num)]
    have hd : Nat.digits 10 5 = [5] := by simp
    rw [hd]
    decide
  refine ⟨by decide, ?_, by decide⟩
  rw [Mtx.write]
  simp only [List.map_cons, List.map_nil, h1, h5]
  decide

/-- C7 (amended): loading a coordinate-list file whose numeric tokens are
canonical decimal renderings and whose declared nonzero count matches its
data line count, then saving it, reproduces every line byte for byte: the
header and the data rows unchanged, and the dimensions line rewritten to
identical canonical content. (On a valid file with non-canonical tokens the
save re-renders every token canonically, as the counterexample shows.) -/
theorem mtx_load_write_roundtrip (header : List Char) (a b c : Nat)
    (rows : List (List Nat))
    (hh : header.head? = some '%')
    (hr : ∀ r ∈ rows, r.length = 3)
    (hc : c = rows.length) :
    Mtx.load (header :: joinSp ([a, b, c].map renderNatTok)
        :: rows.map fun r => joinSp (r.map renderNatTok))
      = some { header := header, sizes := [a, b, c],
               data := rows.enum.map fun q => { label := q.1, fields := q.2 } }
    ∧ Mtx.write { header := header, sizes := [a, b, c],
                  data := rows.enum.map fun q => { label := q.1, fields := q.2 } }
      = header :: joinSp ([a, b, c].map renderNatTok)
        :: rows.map fun r => joinSp (r.map renderNatTok) := by
  have hnonempty : ∀ r ∈ rows, r ≠ [] := by
    intro r hrr hnil
    have hlen3 := hr r hrr
    rw [hnil] at hlen3
    exact absurd hlen3 (by decide)
  constructor
  · rw [Mtx.load]
    rw [parseLine_joinSp [a, b, c] (by simp), mapM_parseLine_rows rows hnonempty]
    rw [hh]
    simp only [if_pos rfl]
    simp only [List.length_cons, List.length_nil, true_and]
    rw [if_pos hr, if_pos trivial]
  · rw [Mtx.write]
    simp only [Mtx.mk.injEq]
    refine congrArg (fun x => header :: joinSp ([a, b, c].map renderNatTok) :: x) ?_
    rw [List.map_map, List.enum]
    exact enumFrom_map_snd (fun r : List Nat => joinSp (r.map renderNatTok)) 0 rows

/-- Witness for mtx_load_write_roundtrip: saving the loaded one-row canonical
file reproduces its lines. -/
theorem mtx_load_write_roundtrip_witness :
    Mtx.write { header := ['%'], sizes := [2, 2, 1],
                data := [[1, 2, 5]].enum.map fun q => { label := q.1, fields := q.2 } }
      = ['%'] :: joinSp ([2, 2, 1].map renderNatTok)
        :: [[1, 2, 5]].map fun r => joinSp (r.map renderNatTok) :=
  (mtx_load_write_roundtrip ['%'] 2 2 1 [[1, 2, 5]] rfl (by decide) rfl).2

end DPSS
